import Mathlib

/-!
# Verification of the Mirror256 hash function (mirror_hash/mirror.py)

A shallow embedding of the Mirror256 hasher.  Python strings are modelled as
lists of Unicode code points (`List Nat`); byte strings as lists of byte
values; nibble blocks and layer keys as `List Nat`.  The class-level
`_last_hashes` schedule cache is modelled per instance with fresh-process
semantics: the constructor computes the full initial schedule, exactly what
the Python code does the first time a hasher of a given depth is built.
The Python `while` loop over 32-character chunks is modelled by structural
recursion on an explicit fuel argument (the buffer length bounds the number
of iterations), so that the function reduces in the kernel.
-/

namespace MirrorHash

/-- UTF-8 encoding of one Unicode code point (as `str.encode` produces). -/
def utf8Char (c : Nat) : List Nat :=
  if c < 0x80 then [c]
  else if c < 0x800 then
    [0xC0 ||| (c >>> 6), 0x80 ||| (c &&& 0x3F)]
  else if c < 0x10000 then
    [0xE0 ||| (c >>> 12), 0x80 ||| ((c >>> 6) &&& 0x3F), 0x80 ||| (c &&& 0x3F)]
  else
    [0xF0 ||| (c >>> 18), 0x80 ||| ((c >>> 12) &&& 0x3F),
     0x80 ||| ((c >>> 6) &&& 0x3F), 0x80 ||| (c &&& 0x3F)]

/-- UTF-8 encoding of a Python string (list of code points). -/
def utf8Encode (s : List Nat) : List Nat :=
  (s.map utf8Char).flatten

def DEFAULT_DEPTH : Nat := 128
def DEFAULT_SIZE : Nat := 256
def TOFFOLI : Nat := 0
def FREDKIN : Nat := 1
def REGULAR : Nat := 0
def MIRRORED : Nat := 1

/-- The table `FIRST_PRIMES_CUBIC_ROOT_DEC_REP` from mirror.py. -/
def FIRST_PRIMES_CUBIC_ROOT_DEC_REP : List Nat := [
  0xa54ddd35b5, 0xd48ef058b4, 0x342640f4c9, 0x51cd2de3e9, 0x8503094982, 0x9b9fd7c452, 0xc47a643e0c, 0xa8602fe35a,
  0x20eaf18d67, 0x4d59f727fe, 0x685bd4533f, 0x7534dcd163, 0x8dc0dcbb8b, 0xb01624cb6d, 0xcfeabbf181, 0xda0b94f97e,
  0x8f4d86d1a9, 0x20c96455af, 0x29c172f7dd, 0x43b770ba12, 0x544d18005f, 0x6c34f761a1, 0x8a76ef782f, 0x98f8d17ddc,
  0xa0151027c6, 0xae080d4b7b, 0xb4e03c992b, 0xc251542f88, 0x3dc28be52f, 0xb75c7e128f, 0x241edeb8f4, 0x04317d07b2,
  0x46305e3a3d, 0x4bafebecef, 0x09308a3b6b, 0x6bb275e451, 0x76044f4b33, 0x85311d5237, 0x94051aaeb0, 0x98e38ef4df,
  0xb0b5da348c, 0xb55fd044a0, 0xbe9b372069, 0xc32ceea80e, 0xddf799a193, 0x0eee44484b, 0x17529bf549, 0x1b7b53489d,
  0x23ba4d74a0, 0x2febef5a50, 0x33f0db9016, 0x47b5d89777, 0x5352304156, 0x5ec09f1622, 0x6a02e0a83b, 0x0af9027c88,
  0x78c3f873a6, 0x8009496a17, 0x83a5537ad2, 0x95715f4210, 0xadb0de7719, 0xb47bab87d1, 0xb7db7bc375, 0xbe90221e69]

/-- `cubic_root_array`: the 8 hex digits `h[-10:-2]` of `format(cr, x)` after
left zero-padding to at least 10 digits.  The character `10 - i` positions
from the end of the padded hex string is the nibble `(cr >>> (4 * (9 - i))) &&& 0xF`,
so the slice is exactly these 8 nibble extractions. -/
def cubic_root_array (cr : Nat) : List Nat :=
  (List.range 8).map (fun i => (cr >>> (8 + 4 * (7 - i))) &&& 0xF)

/-- One layer of `_init_standard_state` (fresh process, layer index `i`). -/
def init_standard_layer (size i : Nat) : List Nat :=
  if i < FIRST_PRIMES_CUBIC_ROOT_DEC_REP.length then
    cubic_root_array (FIRST_PRIMES_CUBIC_ROOT_DEC_REP.getD i 0) ++
      List.replicate (size / 4 - 8) ((i + 1) % 16)
  else
    (List.range (size / 4)).map (fun j => (i + j) % 16)

/-- `_init_standard_state` starting from an empty schedule cache. -/
def init_standard_state (depth size : Nat) : List (List Nat) :=
  (List.range depth).map (init_standard_layer size)

/-- `_init_random_state` starting from an empty cache; `rng k` models the
k-th value drawn from the seeded generator, `randint(0, 15)` being its
residue mod 16 (always in `[0, 15]`, as `randint` guarantees). -/
def init_random_state (depth size : Nat) (rng : Nat → Nat) : List (List Nat) :=
  (List.range depth).map (fun i =>
    (List.range (size / 4)).map (fun j => rng (i * (size / 4) + j) % 16))

/-- `_unpack` applied to a byte string: truncate to 32 bytes, right-pad with
the byte 0x41, and emit high nibble then low nibble of each byte. -/
def unpack_bytes (mBytes : List Nat) : List Nat :=
  let padded := mBytes.take 32 ++ List.replicate (32 - (mBytes.take 32).length) 0x41
  padded.flatMap (fun b => [(b >>> 4) &&& 0xF, b &&& 0xF])

/-- `_unpack` applied to a Python string: encode as UTF-8 first. -/
def unpack (m : List Nat) : List Nat :=
  unpack_bytes (utf8Encode m)

/-- `_pack`: nibble array to `size / 8` bytes. -/
def pack (size : Nat) (hm : List Nat) : List Nat :=
  (List.range (size / 8)).map (fun i =>
    if i * 2 < hm.length then
      if i * 2 + 1 < hm.length then (hm.getD (i * 2) 0 <<< 4) ||| hm.getD (i * 2 + 1) 0
      else hm.getD (i * 2) 0 <<< 4
    else 0)

/-- `_get_wire`. -/
def get_wire (size gate_index : Nat) (first_sublayer : Bool) (offset : Nat) : Nat :=
  (gate_index * 4 + offset + (if first_sublayer then 0 else 2)) % size

/-- `_get_bit`. -/
def get_bit (block : List Nat) (wire : Nat) : Nat :=
  if wire / 4 < block.length then (block.getD (wire / 4) 0 >>> (wire % 4)) &&& 1
  else 0

/-- `_set_bit`. -/
def set_bit (block : List Nat) (wire bit : Nat) : List Nat :=
  if wire / 4 < block.length then
    block.set (wire / 4)
      ((block.getD (wire / 4) 0 &&& (15 ^^^ (1 <<< (wire % 4)))) ||| (bit <<< (wire % 4)))
  else block

/-- `_apply_gate`.  Inside the Toffoli branches the Python expression
`val3 ^ (val1 and val2)` evaluates to `val3 ^^^ val2` because `val1` is
truthy there, and symmetrically for the mirrored variant. -/
def apply_gate (size gate_index gate_name gate_symmetry : Nat) (block : List Nat)
    (first_sublayer : Bool) (layer : Nat) : List Nat :=
  let initial_offset := layer % 2
  let wire1 := get_wire size gate_index first_sublayer (initial_offset + 0)
  let wire2 := get_wire size gate_index first_sublayer (initial_offset + 1)
  let wire3 := get_wire size gate_index first_sublayer (initial_offset + 2)
  let val1 := get_bit block wire1
  let val2 := get_bit block wire2
  let val3 := get_bit block wire3
  let next :=
    if gate_name = TOFFOLI ∧ gate_symmetry = REGULAR ∧ val1 ≠ 0 ∧ val2 ≠ 0 then
      (val1, val2, val3 ^^^ val2)
    else if gate_name = TOFFOLI ∧ gate_symmetry = MIRRORED ∧ val2 ≠ 0 ∧ val3 ≠ 0 then
      (val1 ^^^ val3, val2, val3)
    else if gate_name = FREDKIN ∧ gate_symmetry = REGULAR ∧ val1 ≠ 0 ∧ val2 ≠ val3 then
      (val1, val3, val2)
    else if gate_name = FREDKIN ∧ gate_symmetry = MIRRORED ∧ val3 ≠ 0 ∧ val1 ≠ val2 then
      (val2, val1, val3)
    else (val1, val2, val3)
  let block1 := if next.1 ≠ val1 then set_bit block wire1 next.1 else block
  let block2 := if next.2.1 ≠ val2 then set_bit block1 wire2 next.2.1 else block1
  let block3 := if next.2.2 ≠ val3 then set_bit block2 wire3 next.2.2 else block2
  block3

/-- The value triple computed by the branch chain of `_apply_gate`
(definitionally the `next` triple of `apply_gate`; see `apply_gate_eq`). -/
def gate_next (gate_name gate_symmetry v1 v2 v3 : Nat) : Nat × Nat × Nat :=
  if gate_name = TOFFOLI ∧ gate_symmetry = REGULAR ∧ v1 ≠ 0 ∧ v2 ≠ 0 then
    (v1, v2, v3 ^^^ v2)
  else if gate_name = TOFFOLI ∧ gate_symmetry = MIRRORED ∧ v2 ≠ 0 ∧ v3 ≠ 0 then
    (v1 ^^^ v3, v2, v3)
  else if gate_name = FREDKIN ∧ gate_symmetry = REGULAR ∧ v1 ≠ 0 ∧ v2 ≠ v3 then
    (v1, v3, v2)
  else if gate_name = FREDKIN ∧ gate_symmetry = MIRRORED ∧ v3 ≠ 0 ∧ v1 ≠ v2 then
    (v2, v1, v3)
  else (v1, v2, v3)

/-- The conditional write-back sequence of `_apply_gate`: only wires whose
value changed are written (definitionally the tail of `apply_gate`). -/
def gate_writeback (block : List Nat) (w1 w2 w3 v1 v2 v3 : Nat)
    (t : Nat × Nat × Nat) : List Nat :=
  let block1 := if t.1 ≠ v1 then set_bit block w1 t.1 else block
  let block2 := if t.2.1 ≠ v2 then set_bit block1 w2 t.2.1 else block1
  if t.2.2 ≠ v3 then set_bit block2 w3 t.2.2 else block2

/-- `_hash_layer_pass`: XOR the layer key in, then the two sublayers of gates.
`last_hashes.getD layer []` models the in-range Python indexing
`self._last_hashes[layer]` (reachable states keep `layer < depth =` schedule
length, so the default is never consulted). -/
def hash_layer_pass (size : Nat) (last_hashes : List (List Nat)) (layer : Nat)
    (block : List Nat) : List Nat :=
  let layer_hash := last_hashes.getD layer []
  let block := (List.range (size / 4)).foldl (fun blk gate_index =>
    if gate_index < blk.length ∧ gate_index < layer_hash.length then
      blk.set gate_index (blk.getD gate_index 0 ^^^ layer_hash.getD gate_index 0)
    else blk) block
  let block := (List.range (size / 4)).foldl (fun blk gate_index =>
    if gate_index < layer_hash.length then
      let gate_type := layer_hash.getD gate_index 0 &&& 0x3
      apply_gate size gate_index (gate_type &&& 1) (gate_type >>> 1) blk true layer
    else blk) block
  let block := (List.range (size / 4)).foldl (fun blk gate_index =>
    if gate_index < layer_hash.length then
      let gate_type := (layer_hash.getD gate_index 0 &&& 0xC) >>> 2
      apply_gate size gate_index (gate_type &&& 1) (gate_type >>> 1) blk false layer
    else blk) block
  block

/-- `_mirror256_process` on a Python string chunk. -/
def mirror256_process (size depth : Nat) (last_hashes : List (List Nat))
    (m : List Nat) : List Nat :=
  (List.range depth).foldl (fun block layer => hash_layer_pass size last_hashes layer block)
    (unpack m)

/-- The `while len(self._buffer) >= 32` loop of `update`, with fuel.  Each
iteration consumes a 32-element chunk from the front of the buffer, hashes it
with the current schedule, and pushes the result onto the schedule truncated
to `depth` entries.  One unit of fuel per iteration; callers pass the buffer
length, which dominates the iteration count. -/
def process_chunks_fuel (depth : Nat) (hash : List (List Nat) → List Nat → List Nat) :
    Nat → List (List Nat) → List Nat → List (List Nat) × List Nat
  | 0, last_hashes, buffer => (last_hashes, buffer)
  | fuel + 1, last_hashes, buffer =>
    if 32 ≤ buffer.length then
      process_chunks_fuel depth hash fuel
        ([hash last_hashes (buffer.take 32)] ++ last_hashes.take (depth - 1))
        (buffer.drop 32)
    else (last_hashes, buffer)

/-- The chunk loop of `update`, started with enough fuel. -/
def process_chunks (depth : Nat) (hash : List (List Nat) → List Nat → List Nat)
    (last_hashes : List (List Nat)) (buffer : List Nat) : List (List Nat) × List Nat :=
  process_chunks_fuel depth hash buffer.length last_hashes buffer

/-- The state of a `Mirror256` instance: pending-character buffer, counter,
configuration, current digest block, and the key schedule. -/
structure Mirror256 where
  buffer : List Nat
  counter : Nat
  depth : Nat
  size : Nat
  hashed : List Nat
  last_hashes : List (List Nat)
deriving Repr, DecidableEq

/-- The string path of `update` (the code past the emptiness and type
checks).  Faithful to the source: the buffer is a character buffer, chunks
are its first 32 characters, the remainder is padded with the character
0x41 and hashed into `_hashed` only when the leftover buffer is non-empty
(the `or m == ''` disjunct is vacuous for non-empty strings). -/
def updateStr (st : Mirror256) (m : List Nat) : Mirror256 :=
  if m = [] then st
  else
    let buffer := st.buffer ++ m
    let counter := st.counter + m.length
    let p := process_chunks st.depth (mirror256_process st.size st.depth) st.last_hashes buffer
    let hashed :=
      if p.2 ≠ [] ∨ m = [] then
        mirror256_process st.size st.depth p.1 (p.2 ++ List.replicate (32 - p.2.length) 65)
      else st.hashed
    { st with buffer := p.2, counter := counter, last_hashes := p.1, hashed := hashed }

/-- Python values that can be passed where a `str` is expected. -/
inductive PyVal where
  | pstr (s : List Nat)
  | pint (n : Int)
deriving Repr, DecidableEq

/-- Python truthiness of the modelled values. -/
def truthy : PyVal → Bool
  | .pstr s => decide (s ≠ [])
  | .pint n => decide (n ≠ 0)

inductive PyError where
  | typeError
deriving Repr, DecidableEq

/-- `update`: the emptiness check `if not m: return` runs before the
`isinstance` check, so falsy arguments of any type return silently. -/
def update (st : Mirror256) (m : PyVal) : Except PyError Mirror256 :=
  if truthy m = false then .ok st
  else
    match m with
    | .pstr s => .ok (updateStr st s)
    | .pint _ => .error .typeError

/-- `depth or DEFAULT`, `size or DEFAULT`: `None` and `0` select the default. -/
def orDefault (x : Option Nat) (d : Nat) : Nat :=
  match x with
  | some n => if n = 0 then d else n
  | none => d

/-- The constructor `Mirror256.__init__` in a fresh process: the schedule
cache is empty, so the state is fully initialized; a non-`None` non-string
message raises `TypeError` before `update` is called. -/
def mkMirror256 (m : Option PyVal) (depth size : Option Nat) (use_standard_state : Bool)
    (rng : Nat → Nat) : Except PyError Mirror256 :=
  let d := orDefault depth DEFAULT_DEPTH
  let s := orDefault size DEFAULT_SIZE
  let st : Mirror256 :=
    { buffer := [], counter := 0, depth := d, size := s, hashed := [],
      last_hashes := if use_standard_state then init_standard_state d s
                     else init_random_state d s rng }
  match m with
  | none => .ok st
  | some (.pstr str) => .ok (updateStr st str)
  | some (.pint _) => .error .typeError

/-- `digest`. -/
def digest (st : Mirror256) : List Nat :=
  pack st.size st.hashed

/-- Lowercase hexadecimal digit characters, as `binascii.hexlify` emits. -/
def hexChar (n : Nat) : Char :=
  if n < 10 then Char.ofNat (48 + n) else Char.ofNat (87 + n)

/-- `hexdigest`, modelled as the list of characters of the Python string. -/
def hexdigest (st : Mirror256) : List Char :=
  [Char.ofNat 48, Char.ofNat 120] ++
    (digest st).flatMap (fun b => [hexChar (b / 16), hexChar (b % 16)])

/-! ## Definitions taken from the specification, for comparison with the code -/

/-- `_mirror256_process` on an already-encoded byte chunk (no re-encoding),
used by the spec-side byte-buffer update below. -/
def mirror256_process_bytes (size depth : Nat) (last_hashes : List (List Nat))
    (mBytes : List Nat) : List Nat :=
  (List.range depth).foldl (fun block layer => hash_layer_pass size last_hashes layer block)
    (unpack_bytes mBytes)

/-- The update procedure as the specification words it: the pending buffer is
measured in encoded bytes, a full chunk is the first 32 encoded bytes of the
buffer, and truncation and padding of the remainder operate on encoded
bytes.  Written from the spec sentence, to be compared with `updateStr`. -/
def updateStrSpecBytes (st : Mirror256) (m : List Nat) : Mirror256 :=
  if m = [] then st
  else
    let buffer := st.buffer ++ utf8Encode m
    let counter := st.counter + m.length
    let p := process_chunks st.depth (mirror256_process_bytes st.size st.depth)
      st.last_hashes buffer
    let hashed :=
      if p.2 ≠ [] ∨ m = [] then
        mirror256_process_bytes st.size st.depth p.1
          (p.2 ++ List.replicate (32 - p.2.length) 0x41)
      else st.hashed
    { st with buffer := p.2, counter := counter, last_hashes := p.1, hashed := hashed }

/-- Wire addressing exactly as the specification writes it:
`wire(tapOffset) = (gateIndex*4 + initialOffset + tapOffset + sublayerShift) mod size`. -/
def specWire (size gateIndex initialOffset tapOffset sublayerShift : Nat) : Nat :=
  (gateIndex * 4 + initialOffset + tapOffset + sublayerShift) % size

/-- The gate-semantics table of the specification, acting on the three read
bit values: Toffoli/Regular flips v3 when v1 and v2 are set; Toffoli/Mirrored
flips v1 when v2 and v3 are set; Fredkin/Regular swaps v2 and v3 when v1 is
set and they differ; Fredkin/Mirrored swaps v1 and v2 when v3 is set and
they differ. -/
def specGateTable (gateName gateSymmetry v1 v2 v3 : Nat) : Nat × Nat × Nat :=
  if gateName = 0 ∧ gateSymmetry = 0 then
    if v1 ≠ 0 ∧ v2 ≠ 0 then (v1, v2, v3 ^^^ 1) else (v1, v2, v3)
  else if gateName = 0 ∧ gateSymmetry = 1 then
    if v2 ≠ 0 ∧ v3 ≠ 0 then (v1 ^^^ 1, v2, v3) else (v1, v2, v3)
  else if gateName = 1 ∧ gateSymmetry = 0 then
    if v1 ≠ 0 ∧ v2 ≠ v3 then (v1, v3, v2) else (v1, v2, v3)
  else if gateName = 1 ∧ gateSymmetry = 1 then
    if v3 ≠ 0 ∧ v1 ≠ v2 then (v2, v1, v3) else (v1, v2, v3)
  else (v1, v2, v3)

/-- The padded byte at position `i` of a chunk, as the specification words
it: input truncated to the first 32 bytes if longer, right-padded with the
ASCII byte of the letter A (0x41) to exactly 32 bytes if shorter. -/
def specPaddedByte (bs : List Nat) (i : Nat) : Nat :=
  if i < bs.length then bs.getD i 0 else 0x41

/-! ## Auxiliary predicates and concrete states -/

/-- All code points (or bytes) are 7-bit ASCII. -/
def Ascii (l : List Nat) : Prop :=
  ∀ c ∈ l, c < 128

instance : DecidablePred Ascii := fun l =>
  List.decidableBAll (fun c => c < 128) l

/-- All entries are nibbles: values below 16. -/
def NibbleList (l : List Nat) : Prop :=
  ∀ n ∈ l, n < 16

/-- A trivial stand-in for the seeded random generator (never consulted by
standard-state constructions). -/
def rng0 : Nat → Nat := fun _ => 0

/-- The state of a freshly constructed default hasher (no message, default
depth and size, standard initialization). -/
def stDefault : Mirror256 :=
  { buffer := [], counter := 0, depth := 128, size := 256, hashed := [],
    last_hashes := init_standard_state 128 256 }

/-- The state of a freshly constructed hasher with depth 1 and size 8
(standard initialization), small enough for concrete kernel computation of
full gate-network evaluations in counterexamples. -/
def stSmall : Mirror256 :=
  { buffer := [], counter := 0, depth := 1, size := 8, hashed := [],
    last_hashes := init_standard_state 1 8 }

/-- The state invariant maintained by construction and update: positive
depth, fewer than 32 pending characters, a schedule of exactly `depth` keys
whose entries are nibbles, and a digest block of nibbles. -/
def Inv (st : Mirror256) : Prop :=
  1 ≤ st.depth ∧ st.buffer.length < 32 ∧ st.last_hashes.length = st.depth ∧
    (∀ k ∈ st.last_hashes, NibbleList k) ∧ NibbleList st.hashed

/-- Hasher states reachable through the public interface: a successful
construction followed by any sequence of (string) updates. -/
inductive Reachable : Mirror256 → Prop where
  | construct : ∀ m depth size uss rng st,
      mkMirror256 m depth size uss rng = .ok st → Reachable st
  | step : ∀ st m, Reachable st → Reachable (updateStr st m)

/-- A character of the lowercase hexadecimal alphabet. -/
def isHexLowerChar (c : Char) : Prop :=
  c ∈ ([Char.ofNat 48, Char.ofNat 49, Char.ofNat 50, Char.ofNat 51, Char.ofNat 52,
        Char.ofNat 53, Char.ofNat 54, Char.ofNat 55, Char.ofNat 56, Char.ofNat 57,
        Char.ofNat 97, Char.ofNat 98, Char.ofNat 99, Char.ofNat 100, Char.ofNat 101,
        Char.ofNat 102] : List Char)

instance : DecidablePred isHexLowerChar := fun c => by
  unfold isHexLowerChar
  infer_instance

/-! ## Lemmas about the chunk loop -/

theorem process_chunks_fuel_irrel (depth : Nat) (hash : List (List Nat) → List Nat → List Nat) :
    ∀ f1 f2 s b, b.length ≤ f1 → b.length ≤ f2 →
      process_chunks_fuel depth hash f1 s b = process_chunks_fuel depth hash f2 s b := by
  intro f1
  induction f1 with
  | zero =>
    intro f2 s b h1 h2
    have hb : b = [] := List.length_eq_zero.mp (Nat.le_zero.mp h1)
    subst hb
    cases f2 with
    | zero => rfl
    | succ f2 => simp [process_chunks_fuel]
  | succ f1 ih =>
    intro f2 s b h1 h2
    by_cases h32 : 32 ≤ b.length
    · have hb1 : 1 ≤ b.length := le_trans (by norm_num) h32
      cases f2 with
      | zero => omega
      | succ f2 =>
        simp only [process_chunks_fuel, if_pos h32]
        apply ih
        · simp only [List.length_drop]; omega
        · simp only [List.length_drop]; omega
    · cases f2 with
      | zero =>
        have hb : b = [] := List.length_eq_zero.mp (Nat.le_zero.mp h2)
        subst hb
        simp [process_chunks_fuel]
      | succ f2 => simp only [process_chunks_fuel, if_neg h32]

theorem process_chunks_of_lt (depth : Nat) (hash : List (List Nat) → List Nat → List Nat)
    (s : List (List Nat)) (b : List Nat) (h : b.length < 32) :
    process_chunks depth hash s b = (s, b) := by
  unfold process_chunks
  cases hb : b.length with
  | zero => simp [process_chunks_fuel]
  | succ n =>
    have : ¬ 32 ≤ b.length := by omega
    simp [process_chunks_fuel, this]

theorem process_chunks_step (depth : Nat) (hash : List (List Nat) → List Nat → List Nat)
    (s : List (List Nat)) (b : List Nat) (h : 32 ≤ b.length) :
    process_chunks depth hash s b =
      process_chunks depth hash ([hash s (b.take 32)] ++ s.take (depth - 1)) (b.drop 32) := by
  unfold process_chunks
  cases hb : b.length with
  | zero => omega
  | succ n =>
    have hlen : (b.drop 32).length ≤ n := by simp [List.length_drop]; omega
    simp only [process_chunks_fuel, if_pos h]
    exact process_chunks_fuel_irrel depth hash n (b.drop 32).length _ _ hlen le_rfl

theorem process_chunks_append (depth : Nat) (hash : List (List Nat) → List Nat → List Nat)
    (s : List (List Nat)) (A B : List Nat) :
    process_chunks depth hash s (A ++ B) =
      process_chunks depth hash (process_chunks depth hash s A).1
        ((process_chunks depth hash s A).2 ++ B) := by
  generalize hn : A.length = n
  induction n using Nat.strong_induction_on generalizing A s with
  | _ n ih =>
    by_cases h32 : 32 ≤ A.length
    · have h32ab : 32 ≤ (A ++ B).length := by simp [List.length_append]; omega
      rw [process_chunks_step depth hash s (A ++ B) h32ab,
        process_chunks_step depth hash s A h32,
        List.take_append_of_le_length h32, List.drop_append_of_le_length h32]
      exact ih ((A.drop 32).length) (by simp [List.length_drop]; omega) _ _ rfl
    · rw [process_chunks_of_lt depth hash s A (by omega)]

theorem process_chunks_snd_length (depth : Nat) (hash : List (List Nat) → List Nat → List Nat)
    (s : List (List Nat)) (b : List Nat) :
    (process_chunks depth hash s b).2.length = b.length % 32 := by
  generalize hn : b.length = n
  induction n using Nat.strong_induction_on generalizing b s with
  | _ n ih =>
    by_cases h32 : 32 ≤ b.length
    · rw [process_chunks_step depth hash s b h32]
      rw [ih ((b.drop 32).length) (by simp [List.length_drop]; omega) _ _ rfl]
      simp only [List.length_drop]
      omega
    · rw [process_chunks_of_lt depth hash s b (by omega)]
      simp only
      omega

theorem process_chunks_fst_pred (depth : Nat) (hash : List (List Nat) → List Nat → List Nat)
    (P : List (List Nat) → Prop)
    (hstep : ∀ s c, P s → P ([hash s c] ++ s.take (depth - 1))) :
    ∀ s b, P s → P (process_chunks depth hash s b).1 := by
  intro s b
  generalize hn : b.length = n
  induction n using Nat.strong_induction_on generalizing b s with
  | _ n ih =>
    intro hP
    by_cases h32 : 32 ≤ b.length
    · rw [process_chunks_step depth hash s b h32]
      exact ih ((b.drop 32).length) (by simp [List.length_drop]; omega) _ _ rfl
        (hstep s (b.take 32) hP)
    · rw [process_chunks_of_lt depth hash s b (by omega)]
      exact hP

/-! ## ASCII text and UTF-8 -/

theorem utf8Char_ascii (c : Nat) (h : c < 128) : utf8Char c = [c] := by
  simp [utf8Char, h]

theorem utf8Encode_ascii (l : List Nat) (h : Ascii l) : utf8Encode l = l := by
  induction l with
  | nil => rfl
  | cons c t ih =>
    have hc : c < 128 := h c (List.mem_cons_self c t)
    have ht : Ascii t := fun x hx => h x (List.mem_cons_of_mem c hx)
    simp [utf8Encode, utf8Char_ascii c hc, List.flatten]
    simpa [utf8Encode] using ih ht

theorem ascii_append (A B : List Nat) (hA : Ascii A) (hB : Ascii B) : Ascii (A ++ B) := by
  intro c hc
  rcases List.mem_append.mp hc with h | h
  · exact hA c h
  · exact hB c h

theorem ascii_take (A : List Nat) (n : Nat) (hA : Ascii A) : Ascii (A.take n) :=
  fun c hc => hA c (List.mem_of_mem_take hc)

theorem ascii_drop (A : List Nat) (n : Nat) (hA : Ascii A) : Ascii (A.drop n) :=
  fun c hc => hA c (List.mem_of_mem_drop hc)

theorem process_chunks_congr_ascii (depth : Nat)
    (h1 h2 : List (List Nat) → List Nat → List Nat)
    (hcong : ∀ s c, Ascii c → h1 s c = h2 s c) :
    ∀ s b, Ascii b → process_chunks depth h1 s b = process_chunks depth h2 s b := by
  intro s b
  generalize hn : b.length = n
  induction n using Nat.strong_induction_on generalizing b s with
  | _ n ih =>
    intro hb
    by_cases h32 : 32 ≤ b.length
    · rw [process_chunks_step depth h1 s b h32, process_chunks_step depth h2 s b h32,
        hcong s (b.take 32) (ascii_take b 32 hb)]
      exact ih ((b.drop 32).length) (by simp [List.length_drop]; omega) _ _ rfl
        (ascii_drop b 32 hb)
    · rw [process_chunks_of_lt depth h1 s b (by omega),
        process_chunks_of_lt depth h2 s b (by omega)]

theorem process_chunks_snd_ascii (depth : Nat)
    (hash : List (List Nat) → List Nat → List Nat) :
    ∀ s b, Ascii b → Ascii (process_chunks depth hash s b).2 := by
  intro s b
  generalize hn : b.length = n
  induction n using Nat.strong_induction_on generalizing b s with
  | _ n ih =>
    intro hb
    by_cases h32 : 32 ≤ b.length
    · rw [process_chunks_step depth hash s b h32]
      exact ih ((b.drop 32).length) (by simp [List.length_drop]; omega) _ _ rfl
        (ascii_drop b 32 hb)
    · rw [process_chunks_of_lt depth hash s b (by omega)]
      exact hb

theorem mirror256_process_ascii_eq (size depth : Nat) (last_hashes : List (List Nat))
    (c : List Nat) (hc : Ascii c) :
    mirror256_process size depth last_hashes c =
      mirror256_process_bytes size depth last_hashes c := by
  unfold mirror256_process mirror256_process_bytes unpack
  rw [utf8Encode_ascii c hc]

theorem updateStr_eq_spec_of_ascii (st : Mirror256) (m : List Nat)
    (hb : Ascii st.buffer) (hm : Ascii m) :
    updateStr st m = updateStrSpecBytes st m := by
  unfold updateStr updateStrSpecBytes
  by_cases hm0 : m = []
  · simp [hm0]
  · simp only [if_neg hm0, utf8Encode_ascii m hm]
    have hab : Ascii (st.buffer ++ m) := ascii_append _ _ hb hm
    have hpc := process_chunks_congr_ascii st.depth
      (mirror256_process st.size st.depth) (mirror256_process_bytes st.size st.depth)
      (fun s c hc => mirror256_process_ascii_eq st.size st.depth s c hc)
      st.last_hashes (st.buffer ++ m) hab
    rw [hpc]
    have hp2 : Ascii (process_chunks st.depth (mirror256_process_bytes st.size st.depth)
        st.last_hashes (st.buffer ++ m)).2 :=
      process_chunks_snd_ascii _ _ _ _ hab
    have hpad : Ascii ((process_chunks st.depth (mirror256_process_bytes st.size st.depth)
        st.last_hashes (st.buffer ++ m)).2 ++
          List.replicate (32 - (process_chunks st.depth
            (mirror256_process_bytes st.size st.depth)
            st.last_hashes (st.buffer ++ m)).2.length) 65) := by
      apply ascii_append _ _ hp2
      intro c hc
      rw [List.eq_of_mem_replicate hc]
      norm_num
    rw [mirror256_process_ascii_eq st.size st.depth _ _ hpad]

theorem updateStr_append (st : Mirror256) (A B : List Nat)
    (h : (st.buffer.length + A.length + B.length) % 32 ≠ 0) :
    updateStr (updateStr st A) B = updateStr st (A ++ B) := by
  by_cases hA : A = []
  · subst hA
    simp [updateStr]
  · by_cases hB : B = []
    · subst hB
      simp [updateStr]
    · have hAB : ¬(A ++ B = []) := by simp [hA]
      obtain ⟨bf, ct, dp, sz, hsh, lh⟩ := st
      simp only [updateStr, if_neg hA, if_neg hB, if_neg hAB]
      simp only at h ⊢
      have hassoc : bf ++ A ++ B = bf ++ (A ++ B) := List.append_assoc bf A B
      have hq := process_chunks_append dp (mirror256_process sz dp) lh (bf ++ A) B
      rw [hassoc] at hq
      have hr2 : (process_chunks dp (mirror256_process sz dp) lh (bf ++ (A ++ B))).2 ≠ [] := by
        intro hnil
        have := process_chunks_snd_length dp (mirror256_process sz dp) lh (bf ++ (A ++ B))
        rw [hnil] at this
        simp [List.length_append] at this
        omega
      rw [← hq]
      have hcond1 : ((process_chunks dp (mirror256_process sz dp) lh
          (bf ++ (A ++ B))).2 ≠ [] ∨ B = []) := Or.inl hr2
      have hcond2 : ((process_chunks dp (mirror256_process sz dp) lh
          (bf ++ (A ++ B))).2 ≠ [] ∨ A ++ B = []) := Or.inl hr2
      rw [if_pos hcond1, if_pos hcond2]
      simp only [Mirror256.mk.injEq, List.length_append]
      exact ⟨trivial, by omega, trivial, trivial, trivial, trivial⟩

/-! ## Nibble bounds through all operations -/

theorem foldl_preserve {α β : Type} (P : α → Prop) (f : α → β → α) (l : List β) :
    ∀ a, P a → (∀ x b, P x → P (f x b)) → P (l.foldl f a) := by
  induction l with
  | nil => intro a ha _; exact ha
  | cons hd tl ih => intro a ha hf; exact ih (f a hd) (hf a hd ha) hf

theorem xor_le_one {a b : Nat} (ha : a ≤ 1) (hb : b ≤ 1) : a ^^^ b ≤ 1 :=
  Nat.lt_succ_iff.mp
    (Nat.xor_lt_two_pow (n := 1) (Nat.lt_succ_iff.mpr ha) (Nat.lt_succ_iff.mpr hb))

theorem get_bit_le_one (block : List Nat) (wire : Nat) : get_bit block wire ≤ 1 := by
  unfold get_bit
  split
  · exact Nat.and_le_right
  · exact Nat.zero_le 1

theorem nibbleList_set_bit (block : List Nat) (wire bit : Nat) (hb : bit ≤ 1)
    (hblk : NibbleList block) : NibbleList (set_bit block wire bit) := by
  unfold set_bit
  split
  · intro n hn
    rcases List.mem_or_eq_of_mem_set hn with h | h
    · exact hblk n h
    · subst h
      have hk : wire % 4 < 4 := Nat.mod_lt _ (by norm_num)
      have h2k : 1 <<< (wire % 4) < 16 := by
        rw [Nat.one_shiftLeft]
        calc 2 ^ (wire % 4) ≤ 2 ^ 3 := Nat.pow_le_pow_right (by norm_num) (by omega)
          _ < 16 := by norm_num
      have hmask : 15 ^^^ (1 <<< (wire % 4)) < 16 :=
        Nat.xor_lt_two_pow (n := 4) (by norm_num) h2k
      have hand : block.getD (wire / 4) 0 &&& (15 ^^^ (1 <<< (wire % 4))) < 16 :=
        lt_of_le_of_lt Nat.and_le_right hmask
      have hshift : bit <<< (wire % 4) < 16 := by
        rw [Nat.shiftLeft_eq]
        calc bit * 2 ^ (wire % 4) ≤ 1 * 2 ^ 3 := by
              exact Nat.mul_le_mul hb (Nat.pow_le_pow_right (by norm_num) (by omega))
          _ < 16 := by norm_num
      exact Nat.or_lt_two_pow (n := 4) hand hshift
  · exact hblk

theorem nibbleList_cond_set_bit (block : List Nat) (c : Prop) [Decidable c]
    (wire bit : Nat) (hb : bit ≤ 1) (hblk : NibbleList block) :
    NibbleList (if c then set_bit block wire bit else block) := by
  split
  · exact nibbleList_set_bit block wire bit hb hblk
  · exact hblk

theorem apply_gate_eq (size gate_index gate_name gate_symmetry : Nat)
    (block : List Nat) (first_sublayer : Bool) (layer : Nat) :
    apply_gate size gate_index gate_name gate_symmetry block first_sublayer layer =
      gate_writeback block
        (get_wire size gate_index first_sublayer (layer % 2 + 0))
        (get_wire size gate_index first_sublayer (layer % 2 + 1))
        (get_wire size gate_index first_sublayer (layer % 2 + 2))
        (get_bit block (get_wire size gate_index first_sublayer (layer % 2 + 0)))
        (get_bit block (get_wire size gate_index first_sublayer (layer % 2 + 1)))
        (get_bit block (get_wire size gate_index first_sublayer (layer % 2 + 2)))
        (gate_next gate_name gate_symmetry
          (get_bit block (get_wire size gate_index first_sublayer (layer % 2 + 0)))
          (get_bit block (get_wire size gate_index first_sublayer (layer % 2 + 1)))
          (get_bit block (get_wire size gate_index first_sublayer (layer % 2 + 2)))) :=
  rfl

theorem gate_next_le_one (gate_name gate_symmetry v1 v2 v3 : Nat)
    (h1 : v1 ≤ 1) (h2 : v2 ≤ 1) (h3 : v3 ≤ 1) :
    (gate_next gate_name gate_symmetry v1 v2 v3).1 ≤ 1 ∧
      (gate_next gate_name gate_symmetry v1 v2 v3).2.1 ≤ 1 ∧
      (gate_next gate_name gate_symmetry v1 v2 v3).2.2 ≤ 1 := by
  unfold gate_next
  split_ifs <;>
    exact ⟨by first | assumption | exact xor_le_one h1 h3,
           by assumption,
           by first | assumption | exact xor_le_one h3 h2⟩

theorem nibbleList_gate_writeback (block : List Nat) (w1 w2 w3 v1 v2 v3 : Nat)
    (t : Nat × Nat × Nat) (h1 : t.1 ≤ 1) (h2 : t.2.1 ≤ 1) (h3 : t.2.2 ≤ 1)
    (hblk : NibbleList block) :
    NibbleList (gate_writeback block w1 w2 w3 v1 v2 v3 t) := by
  unfold gate_writeback
  apply nibbleList_cond_set_bit _ _ _ _ h3
  apply nibbleList_cond_set_bit _ _ _ _ h2
  exact nibbleList_cond_set_bit _ _ _ _ h1 hblk

theorem nibbleList_apply_gate (size gate_index gate_name gate_symmetry : Nat)
    (block : List Nat) (first_sublayer : Bool) (layer : Nat)
    (hblk : NibbleList block) :
    NibbleList (apply_gate size gate_index gate_name gate_symmetry block
      first_sublayer layer) := by
  rw [apply_gate_eq]
  obtain ⟨h1, h2, h3⟩ := gate_next_le_one gate_name gate_symmetry _ _ _
    (get_bit_le_one block _) (get_bit_le_one block _) (get_bit_le_one block _)
  exact nibbleList_gate_writeback _ _ _ _ _ _ _ _ h1 h2 h3 hblk

theorem nibbleList_nil : NibbleList [] := by
  intro n hn
  cases hn

theorem nibbleList_getD_schedule (s : List (List Nat)) (i : Nat)
    (hs : ∀ k ∈ s, NibbleList k) : NibbleList (s.getD i []) := by
  by_cases h : i < s.length
  · rw [List.getD_eq_getElem s [] h]
    exact hs _ (List.getElem_mem h)
  · rw [List.getD_eq_default s [] (Nat.le_of_not_lt h)]
    exact nibbleList_nil

theorem nibbleList_getD (l : List Nat) (i : Nat) (hl : NibbleList l) (hi : i < l.length) :
    l.getD i 0 < 16 := by
  rw [List.getD_eq_getElem l 0 hi]
  exact hl _ (List.getElem_mem hi)

theorem nibbleList_hash_layer_pass (size : Nat) (last_hashes : List (List Nat))
    (layer : Nat) (block : List Nat) (hs : ∀ k ∈ last_hashes, NibbleList k)
    (hblk : NibbleList block) :
    NibbleList (hash_layer_pass size last_hashes layer block) := by
  unfold hash_layer_pass
  have hkey : NibbleList (last_hashes.getD layer []) :=
    nibbleList_getD_schedule last_hashes layer hs
  apply foldl_preserve NibbleList _ _ _ ?_ ?_
  · apply foldl_preserve NibbleList _ _ _ ?_ ?_
    · apply foldl_preserve NibbleList _ _ _ hblk ?_
      · intro x gi hx
        split
        · rename_i hcond
          intro n hn
          rcases List.mem_or_eq_of_mem_set hn with h | h
          · exact hx n h
          · subst h
            exact Nat.xor_lt_two_pow (n := 4) (nibbleList_getD x gi hx hcond.1)
              (nibbleList_getD _ gi hkey hcond.2)
        · exact hx
    · intro x gi hx
      split
      · exact nibbleList_apply_gate _ _ _ _ _ _ _ hx
      · exact hx
  · intro x gi hx
    split
    · exact nibbleList_apply_gate _ _ _ _ _ _ _ hx
    · exact hx

theorem nibbleList_unpack_bytes (mBytes : List Nat) : NibbleList (unpack_bytes mBytes) := by
  unfold unpack_bytes
  intro n hn
  simp only [List.mem_flatMap] at hn
  obtain ⟨b, _, hb⟩ := hn
  simp only [List.mem_cons, List.not_mem_nil, or_false] at hb
  rcases hb with h | h <;> subst h <;>
    exact lt_of_le_of_lt Nat.and_le_right (by norm_num)

theorem nibbleList_unpack (m : List Nat) : NibbleList (unpack m) :=
  nibbleList_unpack_bytes (utf8Encode m)

theorem nibbleList_mirror256_process (size depth : Nat) (last_hashes : List (List Nat))
    (m : List Nat) (hs : ∀ k ∈ last_hashes, NibbleList k) :
    NibbleList (mirror256_process size depth last_hashes m) := by
  unfold mirror256_process
  apply foldl_preserve NibbleList _ _ _ (nibbleList_unpack m)
  intro x layer hx
  exact nibbleList_hash_layer_pass size last_hashes layer x hs hx

theorem nibbleList_mirror256_process_bytes (size depth : Nat)
    (last_hashes : List (List Nat)) (m : List Nat)
    (hs : ∀ k ∈ last_hashes, NibbleList k) :
    NibbleList (mirror256_process_bytes size depth last_hashes m) := by
  unfold mirror256_process_bytes
  apply foldl_preserve NibbleList _ _ _ (nibbleList_unpack_bytes m)
  intro x layer hx
  exact nibbleList_hash_layer_pass size last_hashes layer x hs hx

/-- The schedule invariant: exactly `depth` keys, all nibble lists. -/
def SchedInv (depth : Nat) (s : List (List Nat)) : Prop :=
  s.length = depth ∧ ∀ k ∈ s, NibbleList k

theorem schedInv_push (size depth : Nat) (s : List (List Nat)) (c : List Nat)
    (hd : 1 ≤ depth) (hs : SchedInv depth s) :
    SchedInv depth ([mirror256_process size depth s c] ++ s.take (depth - 1)) := by
  obtain ⟨hlen, hnib⟩ := hs
  constructor
  · simp only [List.length_append, List.length_take, List.length_cons, List.length_nil]
    omega
  · intro k hk
    rcases List.mem_append.mp hk with h | h
    · simp only [List.mem_singleton] at h
      subst h
      exact nibbleList_mirror256_process size depth s c hnib
    · exact hnib k (List.mem_of_mem_take h)

theorem schedInv_process_chunks (size depth : Nat) (s : List (List Nat)) (b : List Nat)
    (hd : 1 ≤ depth) (hs : SchedInv depth s) :
    SchedInv depth (process_chunks depth (mirror256_process size depth) s b).1 :=
  process_chunks_fst_pred depth (mirror256_process size depth) (SchedInv depth)
    (fun s c h => schedInv_push size depth s c hd h) s b hs

theorem inv_updateStr (st : Mirror256) (m : List Nat) (h : Inv st) :
    Inv (updateStr st m) := by
  obtain ⟨hd, hbuf, hlen, hsched, hhashed⟩ := h
  unfold updateStr
  by_cases hm : m = []
  · simp only [if_pos hm]
    exact ⟨hd, hbuf, hlen, hsched, hhashed⟩
  · simp only [if_neg hm]
    have hpc := schedInv_process_chunks st.size st.depth st.last_hashes (st.buffer ++ m)
      hd ⟨hlen, hsched⟩
    -- the new buffer is the loop remainder
    have hrem := process_chunks_snd_length st.depth (mirror256_process st.size st.depth)
      st.last_hashes (st.buffer ++ m)
    refine ⟨hd, ?_, hpc.1, hpc.2, ?_⟩
    · simp only [hrem]
      exact Nat.mod_lt _ (by norm_num)
    · split
      · exact nibbleList_mirror256_process st.size st.depth _ _ hpc.2
      · exact hhashed

theorem inv_mk (m : Option PyVal) (depth size : Option Nat) (uss : Bool)
    (rng : Nat → Nat) (st : Mirror256)
    (h : mkMirror256 m depth size uss rng = .ok st) : Inv st := by
  have hd1 : 1 ≤ orDefault depth DEFAULT_DEPTH := by
    cases depth with
    | none => simp [orDefault, DEFAULT_DEPTH]
    | some n =>
      by_cases hn : n = 0 <;> simp [orDefault, DEFAULT_DEPTH, hn] <;> omega
  have hsched : SchedInv (orDefault depth DEFAULT_DEPTH)
      (if uss then init_standard_state (orDefault depth DEFAULT_DEPTH)
          (orDefault size DEFAULT_SIZE)
        else init_random_state (orDefault depth DEFAULT_DEPTH)
          (orDefault size DEFAULT_SIZE) rng) := by
    split
    · constructor
      · simp [init_standard_state]
      · intro k hk
        simp only [init_standard_state, List.mem_map] at hk
        obtain ⟨i, _, hik⟩ := hk
        subst hik
        unfold init_standard_layer
        split
        · intro n hn
          rcases List.mem_append.mp hn with h | h
          · simp only [cubic_root_array, List.mem_map] at h
            obtain ⟨j, _, hj⟩ := h
            subst hj
            exact lt_of_le_of_lt Nat.and_le_right (by norm_num)
          · rw [List.eq_of_mem_replicate h]
            exact Nat.mod_lt _ (by norm_num)
        · intro n hn
          simp only [List.mem_map] at hn
          obtain ⟨j, _, hj⟩ := hn
          subst hj
          exact Nat.mod_lt _ (by norm_num)
    · constructor
      · simp [init_random_state]
      · intro k hk
        simp only [init_random_state, List.mem_map] at hk
        obtain ⟨i, _, hik⟩ := hk
        subst hik
        intro n hn
        simp only [List.mem_map] at hn
        obtain ⟨j, _, hj⟩ := hn
        subst hj
        exact Nat.mod_lt _ (by norm_num)
  unfold mkMirror256 at h
  cases m with
  | none =>
    simp only [Except.ok.injEq] at h
    subst h
    exact ⟨hd1, by norm_num, hsched.1, hsched.2, nibbleList_nil⟩
  | some v =>
    cases v with
    | pstr s =>
      simp only [Except.ok.injEq] at h
      subst h
      exact inv_updateStr _ s ⟨hd1, by norm_num, hsched.1, hsched.2, nibbleList_nil⟩
    | pint n => cases h

theorem reachable_inv (st : Mirror256) (h : Reachable st) : Inv st := by
  induction h with
  | construct m depth size uss rng st hmk => exact inv_mk m depth size uss rng st hmk
  | step st m _ ih => exact inv_updateStr st m ih

/-! ## Digest shape -/

theorem pack_length (size : Nat) (hm : List Nat) : (pack size hm).length = size / 8 := by
  simp [pack]

theorem pack_lt_256 (size : Nat) (hm : List Nat) (h : NibbleList hm) :
    ∀ b ∈ pack size hm, b < 256 := by
  intro b hb
  simp only [pack, List.mem_map, List.mem_range] at hb
  obtain ⟨i, _, hib⟩ := hb
  subst hib
  have h28 : (2 : Nat) ^ 8 = 256 := by norm_num
  have h24 : (2 : Nat) ^ 4 = 16 := by norm_num
  split
  · rename_i h1
    split
    · rename_i h2
      have hx : hm.getD (i * 2) 0 <<< 4 < 2 ^ 8 := by
        rw [Nat.shiftLeft_eq, h24, h28]
        have := nibbleList_getD hm (i * 2) h h1
        omega
      have hy : hm.getD (i * 2 + 1) 0 < 2 ^ 8 := by
        rw [h28]
        have := nibbleList_getD hm (i * 2 + 1) h h2
        omega
      have := Nat.or_lt_two_pow (n := 8) hx hy
      rw [h28] at this
      exact this
    · rw [Nat.shiftLeft_eq, h24]
      have := nibbleList_getD hm (i * 2) h h1
      omega
  · norm_num

theorem digest_length (st : Mirror256) : (digest st).length = st.size / 8 :=
  pack_length st.size st.hashed

theorem hexdigest_length (st : Mirror256) :
    (hexdigest st).length = 2 + 2 * (st.size / 8) := by
  unfold hexdigest
  rw [List.length_append]
  congr 1
  rw [← digest_length st]
  generalize digest st = l
  induction l with
  | nil => rfl
  | cons b t ih => simp only [List.flatMap_cons, List.length_append, List.length_cons,
      List.length_nil, ih, List.length_cons]; omega

theorem hexChar_mem (n : Nat) (h : n < 16) : isHexLowerChar (hexChar n) := by
  interval_cases n <;> decide

theorem hexdigest_take_two (st : Mirror256) :
    (hexdigest st).take 2 = [Char.ofNat 48, Char.ofNat 120] := by
  unfold hexdigest
  rfl

theorem hexdigest_drop_two_hex (st : Mirror256) (h : ∀ b ∈ digest st, b < 256) :
    ∀ c ∈ (hexdigest st).drop 2, isHexLowerChar c := by
  intro c hc
  unfold hexdigest at hc
  rw [show ([Char.ofNat 48, Char.ofNat 120] : List Char) ++
      (digest st).flatMap (fun b => [hexChar (b / 16), hexChar (b % 16)]) =
      Char.ofNat 48 :: Char.ofNat 120 ::
        (digest st).flatMap (fun b => [hexChar (b / 16), hexChar (b % 16)]) from rfl] at hc
  simp only [List.drop_succ_cons, List.drop_zero] at hc
  simp only [List.mem_flatMap, List.mem_cons, List.not_mem_nil, or_false] at hc
  obtain ⟨b, hbmem, hcb⟩ := hc
  have hb := h b hbmem
  rcases hcb with hcb | hcb <;> subst hcb <;> apply hexChar_mem <;> omega

/-! ## Bit-level behaviour of set_bit, get_bit and the gates -/

theorem shiftRight_and_one (x j : Nat) : (x >>> j) &&& 1 = (x.testBit j).toNat := by
  rw [Nat.and_one_is_mod, Nat.shiftRight_eq_div_pow, Nat.testBit_to_div_mod]
  rcases Nat.mod_two_eq_zero_or_one (x / 2 ^ j) with h | h <;> simp [h]

theorem length_set_bit (block : List Nat) (wire bit : Nat) :
    (set_bit block wire bit).length = block.length := by
  unfold set_bit
  split
  · exact List.length_set block _ _
  · rfl

theorem setNib_testBit (old b k j : Nat) (hb : b ≤ 1) (hk : k < 4) (hj : j < 4) :
    ((old &&& (15 ^^^ (1 <<< k))) ||| (b <<< k)).testBit j =
      if j = k then decide (b = 1) else old.testBit j := by
  rw [Nat.testBit_or, Nat.testBit_and, Nat.testBit_xor, Nat.one_shiftLeft,
    Nat.testBit_two_pow, Nat.testBit_shiftLeft]
  rw [show (15 : Nat) = 2 ^ 4 - 1 by norm_num, Nat.testBit_two_pow_sub_one]
  by_cases hjk : j = k
  · subst hjk
    simp [hj]
    interval_cases b <;> simp
  · have hkj : ¬(k = j) := fun h => hjk h.symm
    by_cases hge : j ≥ k
    · have hpos : 1 ≤ j - k := by omega
      have hlt : b < 2 ^ (j - k) :=
        lt_of_le_of_lt hb
          (lt_of_lt_of_le (by norm_num) (Nat.pow_le_pow_right (by norm_num) hpos))
      simp [hjk, hkj, hj, Nat.testBit_lt_two_pow hlt]
    · simp [hjk, hkj, hj, hge]

theorem get_bit_set_bit_self (block : List Nat) (wire bit : Nat)
    (h : wire / 4 < block.length) (hb : bit ≤ 1) :
    get_bit (set_bit block wire bit) wire = bit := by
  unfold set_bit
  rw [if_pos h]
  unfold get_bit
  rw [if_pos (by rw [List.length_set]; exact h)]
  rw [List.getD_eq_getElem _ 0 (by rw [List.length_set]; exact h)]
  rw [List.getElem_set_self]
  rw [shiftRight_and_one, setNib_testBit _ _ _ _ hb (Nat.mod_lt _ (by norm_num))
    (Nat.mod_lt _ (by norm_num))]
  rw [if_pos rfl]
  interval_cases bit <;> simp

theorem get_bit_set_bit_ne (block : List Nat) (wire w2 bit : Nat)
    (hb : bit ≤ 1) (hne : w2 ≠ wire) :
    get_bit (set_bit block wire bit) w2 = get_bit block w2 := by
  unfold set_bit
  split
  · rename_i hw
    unfold get_bit
    rw [List.length_set]
    by_cases h2 : w2 / 4 < block.length
    · rw [if_pos h2, if_pos h2]
      by_cases hdiv : w2 / 4 = wire / 4
      · have hmod : w2 % 4 ≠ wire % 4 := by
          intro hm
          apply hne
          omega
        rw [hdiv, List.getD_eq_getElem _ 0 (by rw [List.length_set]; exact hw),
          List.getElem_set_self, List.getD_eq_getElem _ 0 hw]
        rw [shiftRight_and_one, shiftRight_and_one,
          setNib_testBit _ _ _ _ hb (Nat.mod_lt _ (by norm_num))
            (Nat.mod_lt _ (by norm_num))]
        rw [if_neg hmod]
      · rw [List.getD_eq_getElem _ 0 (by rw [List.length_set]; exact h2),
          List.getElem_set_ne (fun h => hdiv h.symm), List.getD_eq_getElem _ 0 h2]
    · rw [if_neg h2, if_neg h2]
  · rfl

theorem gate_writeback_gets (block : List Nat) (w1 w2 w3 : Nat) (t : Nat × Nat × Nat)
    (h12 : w1 ≠ w2) (h13 : w1 ≠ w3) (h23 : w2 ≠ w3)
    (hb1 : w1 / 4 < block.length) (hb2 : w2 / 4 < block.length)
    (hb3 : w3 / 4 < block.length)
    (ht1 : t.1 ≤ 1) (ht2 : t.2.1 ≤ 1) (ht3 : t.2.2 ≤ 1) :
    get_bit (gate_writeback block w1 w2 w3 (get_bit block w1) (get_bit block w2)
        (get_bit block w3) t) w1 = t.1 ∧
    get_bit (gate_writeback block w1 w2 w3 (get_bit block w1) (get_bit block w2)
        (get_bit block w3) t) w2 = t.2.1 ∧
    get_bit (gate_writeback block w1 w2 w3 (get_bit block w1) (get_bit block w2)
        (get_bit block w3) t) w3 = t.2.2 ∧
    ∀ w, w ≠ w1 → w ≠ w2 → w ≠ w3 →
      get_bit (gate_writeback block w1 w2 w3 (get_bit block w1) (get_bit block w2)
        (get_bit block w3) t) w = get_bit block w := by
  unfold gate_writeback
  simp only
  set B1 := if t.1 ≠ get_bit block w1 then set_bit block w1 t.1 else block with hB1def
  have hB1len : B1.length = block.length := by
    rw [hB1def]; split
    · exact length_set_bit block w1 t.1
    · rfl
  have hB1w1 : get_bit B1 w1 = t.1 := by
    rw [hB1def]; split
    · exact get_bit_set_bit_self block w1 t.1 hb1 ht1
    · rename_i h
      exact (Classical.not_not.mp h).symm
  have hB1other : ∀ w, w ≠ w1 → get_bit B1 w = get_bit block w := by
    intro w hw
    rw [hB1def]; split
    · exact get_bit_set_bit_ne block w1 w t.1 ht1 hw
    · rfl
  set B2 := if t.2.1 ≠ get_bit block w2 then set_bit B1 w2 t.2.1 else B1 with hB2def
  have hB2len : B2.length = block.length := by
    rw [hB2def]; split
    · rw [length_set_bit, hB1len]
    · exact hB1len
  have hB2w2 : get_bit B2 w2 = t.2.1 := by
    rw [hB2def]; split
    · exact get_bit_set_bit_self B1 w2 t.2.1 (hB1len ▸ hb2) ht2
    · rename_i h
      rw [hB1other w2 (fun h => h12 h.symm)]
      exact (Classical.not_not.mp h).symm
  have hB2other : ∀ w, w ≠ w2 → get_bit B2 w = get_bit B1 w := by
    intro w hw
    rw [hB2def]; split
    · exact get_bit_set_bit_ne B1 w2 w t.2.1 ht2 hw
    · rfl
  set B3 := if t.2.2 ≠ get_bit block w3 then set_bit B2 w3 t.2.2 else B2 with hB3def
  have hB3w3 : get_bit B3 w3 = t.2.2 := by
    rw [hB3def]; split
    · exact get_bit_set_bit_self B2 w3 t.2.2 (hB2len ▸ hb3) ht3
    · rename_i h
      rw [hB2other w3 (fun h => h23 h.symm), hB1other w3 (fun h => h13 h.symm)]
      exact (Classical.not_not.mp h).symm
  have hB3other : ∀ w, w ≠ w3 → get_bit B3 w = get_bit B2 w := by
    intro w hw
    rw [hB3def]; split
    · exact get_bit_set_bit_ne B2 w3 w t.2.2 ht3 hw
    · rfl
  refine ⟨?_, ?_, hB3w3, ?_⟩
  · rw [hB3other w1 h13, hB2other w1 h12, hB1w1]
  · rw [hB3other w2 h23, hB2w2]
  · intro w hw1 hw2 hw3
    rw [hB3other w hw3, hB2other w hw2, hB1other w hw1]

set_option maxHeartbeats 1600000 in
theorem gate_next_eq_spec (gate_name gate_symmetry v1 v2 v3 : Nat)
    (h1 : v1 ≤ 1) (h2 : v2 ≤ 1) (h3 : v3 ≤ 1) :
    gate_next gate_name gate_symmetry v1 v2 v3 =
      specGateTable gate_name gate_symmetry v1 v2 v3 := by
  unfold gate_next specGateTable TOFFOLI FREDKIN REGULAR MIRRORED
  by_cases hn0 : gate_name = 0 <;> by_cases hs0 : gate_symmetry = 0 <;>
    by_cases hn1 : gate_name = 1 <;> by_cases hs1 : gate_symmetry = 1 <;>
    interval_cases v1 <;> interval_cases v2 <;> interval_cases v3 <;>
    simp_all

/-! ## Unpack against the specification wording -/

theorem flatMap_congr {α β : Type} (l : List α) (f g : α → List β)
    (h : ∀ a ∈ l, f a = g a) : l.flatMap f = l.flatMap g := by
  induction l with
  | nil => rfl
  | cons hd tl ih =>
    simp only [List.flatMap_cons]
    rw [h hd (List.mem_cons_self hd tl), ih (fun a ha => h a (List.mem_cons_of_mem hd ha))]

theorem take_pad_eq_map (bs : List Nat) :
    bs.take 32 ++ List.replicate (32 - (bs.take 32).length) 0x41 =
      (List.range 32).map (fun i => specPaddedByte bs i) := by
  apply List.ext_getElem
  · simp only [List.length_append, List.length_take, List.length_replicate,
      List.length_map, List.length_range]
    omega
  · intro i h1 h2
    simp only [List.length_map, List.length_range] at h2
    rw [List.getElem_map]
    simp only [List.getElem_range]
    by_cases hi : i < (bs.take 32).length
    · rw [List.getElem_append_left hi]
      rw [List.getElem_take]
      have hlen : i < bs.length := by
        simp only [List.length_take] at hi
        omega
      unfold specPaddedByte
      rw [if_pos hlen, List.getD_eq_getElem bs 0 hlen]
    · rw [List.getElem_append_right (Nat.le_of_not_lt hi)]
      rw [List.getElem_replicate]
      have hlen : ¬ i < bs.length := by
        simp only [List.length_take] at hi
        omega
      unfold specPaddedByte
      rw [if_neg hlen]

theorem byte_high_nibble (b : Nat) (hb : b < 256) : (b >>> 4) &&& 0xF = b / 16 := by
  rw [Nat.shiftRight_eq_div_pow]
  have h16 : (2 : Nat) ^ 4 = 16 := by norm_num
  rw [h16]
  rw [show (0xF : Nat) = 2 ^ 4 - 1 by norm_num, Nat.and_pow_two_sub_one_eq_mod, h16]
  exact Nat.mod_eq_of_lt (by omega)

theorem byte_low_nibble (b : Nat) : b &&& 0xF = b % 16 := by
  rw [show (0xF : Nat) = 2 ^ 4 - 1 by norm_num, Nat.and_pow_two_sub_one_eq_mod]

theorem unpack_bytes_eq_spec (bs : List Nat) (hbytes : ∀ b ∈ bs, b < 256) :
    unpack_bytes bs =
      (List.range 32).flatMap
        (fun i => [specPaddedByte bs i / 16, specPaddedByte bs i % 16]) := by
  unfold unpack_bytes
  rw [take_pad_eq_map, List.flatMap_map]
  apply flatMap_congr
  intro i hi
  have hlt : specPaddedByte bs i < 256 := by
    unfold specPaddedByte
    split
    · rename_i h
      rw [List.getD_eq_getElem bs 0 h]
      exact hbytes _ (List.getElem_mem h)
    · norm_num
  rw [byte_high_nibble _ hlt, byte_low_nibble]

theorem unpack_bytes_length (bs : List Nat) : (unpack_bytes bs).length = 64 := by
  unfold unpack_bytes
  rw [take_pad_eq_map]
  rw [List.flatMap_map]
  have : ∀ n, ((List.range n).flatMap
      (fun i => [(specPaddedByte bs i >>> 4) &&& 0xF, specPaddedByte bs i &&& 0xF])).length
      = 2 * n := by
    intro n
    induction n with
    | zero => rfl
    | succ k ih =>
      rw [List.range_succ, List.flatMap_append, List.length_append, ih]
      simp only [List.flatMap_cons, List.flatMap_nil, List.append_nil, List.length_cons,
        List.length_nil]
      omega
  exact this 32

/-! ## The claims -/

set_option maxRecDepth 100000 in
/-- Claim C1, counterexample.  The claim says an empty construction or an
empty update yields a digest equal to the hash of the all-padding chunk (32
bytes of 0x41 through all depth layers).  In fact `update` returns
immediately on an empty string (the `if not m: return` guard), the
all-padding chunk is never processed, and the fresh digest is the all-zero
packing of the empty block: for a freshly constructed depth-1 size-8 hasher
the digest is the zero byte while the all-padding chunk hashes to 236. -/
theorem claim_C1_counterexample :
    mkMirror256 none (some 1) (some 8) true rng0 = .ok stSmall ∧
    updateStr stSmall [] = stSmall ∧
    digest stSmall = [0] ∧
    pack stSmall.size (mirror256_process stSmall.size stSmall.depth stSmall.last_hashes
      (List.replicate 32 65)) = [236] ∧
    digest stSmall ≠ pack stSmall.size (mirror256_process stSmall.size stSmall.depth
      stSmall.last_hashes (List.replicate 32 65)) :=
  ⟨rfl, rfl, by decide, by decide, by decide⟩

/-- Claim C1, amended.  Constructing with no message (or with the empty
string), or calling update with the empty string, is a no-op that leaves the
digest well-defined and equal to the all-zero packing of the empty digest
block (`size / 8` zero bytes); the all-padding chunk is not processed. -/
theorem claim_C1 (m : Option PyVal) (depth size : Option Nat) (uss : Bool)
    (rng : Nat → Nat) (st : Mirror256)
    (hm : m = none ∨ m = some (.pstr []))
    (hmk : mkMirror256 m depth size uss rng = .ok st) :
    st.hashed = [] ∧ digest st = List.replicate (st.size / 8) 0 ∧
      updateStr st [] = st := by
  have hpack : ∀ s : Nat, pack s [] = List.replicate (s / 8) 0 := by
    intro s
    apply List.ext_getElem
    · simp [pack]
    · intro i h1 h2
      simp [pack]
  rcases hm with hm | hm <;> subst hm <;>
    simp only [mkMirror256, Except.ok.injEq] at hmk <;> subst hmk <;>
    refine ⟨rfl, ?_, rfl⟩ <;> exact hpack _

/-- Claim C1, witness. -/
theorem claim_C1_witness :
    (some (PyVal.pstr []) = none ∨ some (PyVal.pstr []) = some (PyVal.pstr [])) ∧
    mkMirror256 (some (.pstr [])) none none true rng0 = .ok stDefault ∧
    (stDefault.hashed = [] ∧
      digest stDefault = List.replicate (stDefault.size / 8) 0 ∧
      updateStr stDefault [] = stDefault) :=
  ⟨Or.inr rfl, rfl,
   claim_C1 (some (.pstr [])) none none true rng0 stDefault (Or.inr rfl) rfl⟩

/-- Claim C2, counterexample.  The claim says every non-text argument to
`update` raises a type error immediately.  In fact the emptiness check
`if not m: return` runs first, so the falsy non-text argument `0` returns
silently with no error and no state change. -/
theorem claim_C2_counterexample :
    update stDefault (.pint 0) = .ok stDefault :=
  rfl

/-- Claim C2, amended.  A truthy non-text argument to `update` raises a type
error before any chunk processing, leaving the hasher unchanged; a falsy
non-text argument (such as the integer 0) is silently ignored, also leaving
the hasher unchanged; the constructor raises a type error for every
non-`None` non-text initial message, truthy or falsy. -/
theorem claim_C2 (st : Mirror256) (n : Int) (hn : n ≠ 0) :
    update st (.pint n) = .error .typeError ∧
    update st (.pint 0) = .ok st ∧
    (∀ (depth size : Option Nat) (uss : Bool) (rng : Nat → Nat),
      mkMirror256 (some (.pint n)) depth size uss rng = .error .typeError) ∧
    (∀ (depth size : Option Nat) (uss : Bool) (rng : Nat → Nat),
      mkMirror256 (some (.pint 0)) depth size uss rng = .error .typeError) := by
  refine ⟨?_, rfl, fun _ _ _ _ => rfl, fun _ _ _ _ => rfl⟩
  have ht : truthy (.pint n) = true := by simp [truthy, hn]
  unfold update
  rw [ht]
  simp

/-- Claim C2, witness. -/
theorem claim_C2_witness :
    (1 : Int) ≠ 0 ∧
    (update stDefault (.pint 1) = .error .typeError ∧
      update stDefault (.pint 0) = .ok stDefault ∧
      (∀ (depth size : Option Nat) (uss : Bool) (rng : Nat → Nat),
        mkMirror256 (some (.pint 1)) depth size uss rng = .error .typeError) ∧
      (∀ (depth size : Option Nat) (uss : Bool) (rng : Nat → Nat),
        mkMirror256 (some (.pint 0)) depth size uss rng = .error .typeError)) :=
  ⟨by decide, claim_C2 stDefault 1 (by decide)⟩

/-- Claim C9.  On a freshly constructed default hasher (and after the no-op
`update` with the empty string) the internal digest block is the empty list,
`digest` returns exactly 32 bytes all equal to zero because `pack`
substitutes 0 for every missing nibble, and `hexdigest` is the 66-character
string of `0x` followed by 64 zero digits; both are total (never raise). -/
theorem claim_C9 :
    stDefault.hashed = [] ∧
    digest stDefault = List.replicate 32 0 ∧
    hexdigest stDefault =
      Char.ofNat 48 :: Char.ofNat 120 :: List.replicate 64 (Char.ofNat 48) ∧
    updateStr stDefault [] = stDefault ∧
    update stDefault (.pstr []) = .ok stDefault :=
  ⟨rfl, by decide, by decide, rfl, rfl⟩

set_option maxRecDepth 100000 in
/-- Claim C3, counterexample.  The claim says the pending buffer is measured
in encoded bytes and a full chunk is the first 32 encoded bytes.  In fact
the buffer is measured in characters: updating a fresh default hasher with
the 33-character string whose UTF-8 encoding has 34 bytes consumes the first
32 characters (33 encoded bytes, of which `_unpack` keeps only 32, dropping
one input byte) and leaves a single character in the buffer, whereas the
byte-measured update of the specification would leave two bytes pending. -/
theorem claim_C3_counterexample :
    (utf8Encode (0xE9 :: List.replicate 32 97)).length = 34 ∧
    (updateStr stDefault (0xE9 :: List.replicate 32 97)).buffer = [97] ∧
    (updateStrSpecBytes stDefault (0xE9 :: List.replicate 32 97)).buffer = [97, 97] ∧
    utf8Encode ((updateStr stDefault (0xE9 :: List.replicate 32 97)).buffer) ≠
      (updateStrSpecBytes stDefault (0xE9 :: List.replicate 32 97)).buffer :=
  ⟨by decide, by decide, by decide, by decide⟩

/-- Claim C3, amended.  The pending buffer is measured in characters and a
full chunk is the first 32 buffered characters, whose UTF-8 encoding
`_unpack` truncates to 32 bytes (or pads with 0x41 bytes); for 7-bit ASCII
text, where characters and encoded bytes coincide, this agrees exactly, state
for state, with the byte-measured update described by the specification. -/
theorem claim_C3 (st : Mirror256) (m : List Nat)
    (hb : Ascii st.buffer) (hm : Ascii m) :
    updateStr st m = updateStrSpecBytes st m :=
  updateStr_eq_spec_of_ascii st m hb hm

/-- Claim C3, witness. -/
theorem claim_C3_witness :
    Ascii stDefault.buffer ∧ Ascii [104, 105] ∧
    updateStr stDefault [104, 105] = updateStrSpecBytes stDefault [104, 105] :=
  ⟨by decide, by decide, claim_C3 stDefault [104, 105] (by decide) (by decide)⟩

set_option maxRecDepth 100000 in
/-- Claim C4, counterexample.  The claim says update(A) then update(B)
always equals update(A++B) on a fresh hasher.  When the concatenated message
fills the last chunk exactly, the single call skips remainder processing and
leaves the digest block empty, while the split calls keep the stale digest of
the first call's padded remainder: on a fresh depth-1 size-8 hasher, "a"
then "a"*31 digests to byte 196, but "a"*32 in one call digests to 0. -/
theorem claim_C4_counterexample :
    digest (updateStr (updateStr stSmall [97]) (List.replicate 31 97)) = [196] ∧
    digest (updateStr stSmall ([97] ++ List.replicate 31 97)) = [0] ∧
    digest (updateStr (updateStr stSmall [97]) (List.replicate 31 97)) ≠
      digest (updateStr stSmall ([97] ++ List.replicate 31 97)) :=
  ⟨by decide, by decide, by decide⟩

/-- Claim C4, amended.  Incremental equivalence holds as full state equality
whenever the total pending length is not an exact multiple of 32 characters
(so the final padded-remainder pass runs in both computations); constructing
with an initial message is unconditionally the same as constructing empty
and calling update once with that message. -/
theorem claim_C4 (st : Mirror256) (A B : List Nat)
    (h : (st.buffer.length + A.length + B.length) % 32 ≠ 0) :
    updateStr (updateStr st A) B = updateStr st (A ++ B) ∧
    ∀ (m : List Nat) (depth size : Option Nat) (uss : Bool) (rng : Nat → Nat),
      mkMirror256 (some (.pstr m)) depth size uss rng =
        (mkMirror256 none depth size uss rng).map (fun st0 => updateStr st0 m) :=
  ⟨updateStr_append st A B h, fun _ _ _ _ _ => rfl⟩

/-- Claim C4, witness. -/
theorem claim_C4_witness :
    (stDefault.buffer.length + [97].length + [98].length) % 32 ≠ 0 ∧
    (updateStr (updateStr stDefault [97]) [98] = updateStr stDefault ([97] ++ [98]) ∧
      ∀ (m : List Nat) (depth size : Option Nat) (uss : Bool) (rng : Nat → Nat),
        mkMirror256 (some (.pstr m)) depth size uss rng =
          (mkMirror256 none depth size uss rng).map (fun st0 => updateStr st0 m)) :=
  ⟨by decide, claim_C4 stDefault [97] [98] (by decide)⟩

/-- A helper equation: `updateStr` on a non-empty string, written without
local bindings. -/
theorem updateStr_fields (st : Mirror256) (m : List Nat) (hm : m ≠ []) :
    updateStr st m =
      { st with
        buffer := (process_chunks st.depth (mirror256_process st.size st.depth)
          st.last_hashes (st.buffer ++ m)).2,
        counter := st.counter + m.length,
        last_hashes := (process_chunks st.depth (mirror256_process st.size st.depth)
          st.last_hashes (st.buffer ++ m)).1,
        hashed :=
          if (process_chunks st.depth (mirror256_process st.size st.depth)
              st.last_hashes (st.buffer ++ m)).2 ≠ [] ∨ m = [] then
            mirror256_process st.size st.depth
              (process_chunks st.depth (mirror256_process st.size st.depth)
                st.last_hashes (st.buffer ++ m)).1
              ((process_chunks st.depth (mirror256_process st.size st.depth)
                  st.last_hashes (st.buffer ++ m)).2 ++
                List.replicate (32 - (process_chunks st.depth
                  (mirror256_process st.size st.depth)
                  st.last_hashes (st.buffer ++ m)).2.length) 65)
          else st.hashed } := by
  unfold updateStr
  rw [if_neg hm]

/-- Claim C5.  In every reachable hasher state, `digest` returns exactly
`size / 8` raw bytes and `hexdigest` returns the two characters `0x`
followed by `2 * (size / 8)` lowercase hexadecimal characters (66 characters
in total when `size = 256`); both are pure functions of the state. -/
theorem claim_C5 (st : Mirror256) (h : Reachable st) :
    (digest st).length = st.size / 8 ∧
    (hexdigest st).length = 2 + 2 * (st.size / 8) ∧
    (hexdigest st).take 2 = [Char.ofNat 48, Char.ofNat 120] ∧
    (∀ c ∈ (hexdigest st).drop 2, isHexLowerChar c) ∧
    (st.size = 256 → (hexdigest st).length = 66) := by
  have hinv := reachable_inv st h
  refine ⟨digest_length st, hexdigest_length st, hexdigest_take_two st, ?_, ?_⟩
  · exact hexdigest_drop_two_hex st (pack_lt_256 st.size st.hashed hinv.2.2.2.2)
  · intro hsz
    rw [hexdigest_length st, hsz]

/-- Claim C5, witness. -/
theorem claim_C5_witness :
    Reachable stDefault ∧
    ((digest stDefault).length = stDefault.size / 8 ∧
      (hexdigest stDefault).length = 2 + 2 * (stDefault.size / 8) ∧
      (hexdigest stDefault).take 2 = [Char.ofNat 48, Char.ofNat 120] ∧
      (∀ c ∈ (hexdigest stDefault).drop 2, isHexLowerChar c) ∧
      (stDefault.size = 256 → (hexdigest stDefault).length = 66)) :=
  ⟨Reachable.construct none none none true rng0 stDefault rfl,
   claim_C5 stDefault (Reachable.construct none none none true rng0 stDefault rfl)⟩

/-- Claim C6.  For every update on a reachable state, the key schedule after
the call is exactly the schedule produced by the full-chunk loop (each full
32-character chunk's block prepended and the schedule truncated to the
leading `depth` entries), so its length never exceeds `depth`; the
padded-remainder block is never pushed onto the schedule — the digest block
after the call is either unchanged or the remainder's hash. -/
theorem claim_C6 (st : Mirror256) (h : Reachable st) (m : List Nat) :
    (updateStr st m).last_hashes.length ≤ st.depth ∧
    (updateStr st m).last_hashes =
      (process_chunks st.depth (mirror256_process st.size st.depth)
        st.last_hashes (st.buffer ++ m)).1 ∧
    ((updateStr st m).hashed = st.hashed ∨
      (updateStr st m).hashed =
        mirror256_process st.size st.depth (updateStr st m).last_hashes
          ((updateStr st m).buffer ++
            List.replicate (32 - (updateStr st m).buffer.length) 65)) := by
  obtain ⟨hd, hbuf, hlen, hsched, hhashed⟩ := reachable_inv st h
  by_cases hm : m = []
  · subst hm
    have hpc : process_chunks st.depth (mirror256_process st.size st.depth)
        st.last_hashes (st.buffer ++ []) = (st.last_hashes, st.buffer) := by
      rw [List.append_nil]
      exact process_chunks_of_lt _ _ _ _ hbuf
    rw [show updateStr st [] = st from rfl, hpc]
    exact ⟨le_of_eq hlen, rfl, Or.inl rfl⟩
  · obtain ⟨bf, ct, dp, sz, hsh, lh⟩ := st
    dsimp only at hd hbuf hlen hsched hhashed ⊢
    unfold updateStr
    rw [if_neg hm]
    dsimp only
    refine ⟨le_of_eq (schedInv_process_chunks sz dp lh (bf ++ m) hd ⟨hlen, hsched⟩).1,
      rfl, ?_⟩
    by_cases hc : ((process_chunks dp (mirror256_process sz dp) lh (bf ++ m)).2 ≠ [] ∨
        m = [])
    · right
      rw [if_pos hc]
    · left
      rw [if_neg hc]

/-- Claim C6, witness. -/
theorem claim_C6_witness :
    Reachable stDefault ∧
    ((updateStr stDefault [99]).last_hashes.length ≤ stDefault.depth ∧
      (updateStr stDefault [99]).last_hashes =
        (process_chunks stDefault.depth
          (mirror256_process stDefault.size stDefault.depth)
          stDefault.last_hashes (stDefault.buffer ++ [99])).1 ∧
      ((updateStr stDefault [99]).hashed = stDefault.hashed ∨
        (updateStr stDefault [99]).hashed =
          mirror256_process stDefault.size stDefault.depth
            (updateStr stDefault [99]).last_hashes
            ((updateStr stDefault [99]).buffer ++
              List.replicate (32 - (updateStr stDefault [99]).buffer.length) 65))) :=
  ⟨Reachable.construct none none none true rng0 stDefault rfl,
   claim_C6 stDefault (Reachable.construct none none none true rng0 stDefault rfl) [99]⟩

/-- Claim C7.  For a gate at `gate_index`, the three wires are
`(gate_index*4 + initialOffset + tapOffset + sublayerShift) mod size` for
tap offsets 0, 1, 2, with `initialOffset = layer mod 2` and shift 0 for the
first sublayer and 2 for the second; when the three wires are distinct and
address the block, the gate rewrites the bits at the three wires exactly as
the specification's Toffoli/Fredkin, Regular/Mirrored table prescribes and
leaves every other wire unchanged (only changed wires are written back). -/
theorem claim_C7 (size gate_index gate_name gate_symmetry : Nat) (block : List Nat)
    (first_sublayer : Bool) (layer : Nat)
    (h12 : get_wire size gate_index first_sublayer (layer % 2 + 0) ≠
      get_wire size gate_index first_sublayer (layer % 2 + 1))
    (h13 : get_wire size gate_index first_sublayer (layer % 2 + 0) ≠
      get_wire size gate_index first_sublayer (layer % 2 + 2))
    (h23 : get_wire size gate_index first_sublayer (layer % 2 + 1) ≠
      get_wire size gate_index first_sublayer (layer % 2 + 2))
    (hb1 : get_wire size gate_index first_sublayer (layer % 2 + 0) / 4 < block.length)
    (hb2 : get_wire size gate_index first_sublayer (layer % 2 + 1) / 4 < block.length)
    (hb3 : get_wire size gate_index first_sublayer (layer % 2 + 2) / 4 < block.length) :
    (∀ tapOffset : Nat,
      get_wire size gate_index first_sublayer (layer % 2 + tapOffset) =
        specWire size gate_index (layer % 2) tapOffset
          (if first_sublayer then 0 else 2)) ∧
    get_bit (apply_gate size gate_index gate_name gate_symmetry block first_sublayer
        layer) (get_wire size gate_index first_sublayer (layer % 2 + 0)) =
      (specGateTable gate_name gate_symmetry
        (get_bit block (get_wire size gate_index first_sublayer (layer % 2 + 0)))
        (get_bit block (get_wire size gate_index first_sublayer (layer % 2 + 1)))
        (get_bit block (get_wire size gate_index first_sublayer (layer % 2 + 2)))).1 ∧
    get_bit (apply_gate size gate_index gate_name gate_symmetry block first_sublayer
        layer) (get_wire size gate_index first_sublayer (layer % 2 + 1)) =
      (specGateTable gate_name gate_symmetry
        (get_bit block (get_wire size gate_index first_sublayer (layer % 2 + 0)))
        (get_bit block (get_wire size gate_index first_sublayer (layer % 2 + 1)))
        (get_bit block (get_wire size gate_index first_sublayer (layer % 2 + 2)))).2.1 ∧
    get_bit (apply_gate size gate_index gate_name gate_symmetry block first_sublayer
        layer) (get_wire size gate_index first_sublayer (layer % 2 + 2)) =
      (specGateTable gate_name gate_symmetry
        (get_bit block (get_wire size gate_index first_sublayer (layer % 2 + 0)))
        (get_bit block (get_wire size gate_index first_sublayer (layer % 2 + 1)))
        (get_bit block (get_wire size gate_index first_sublayer (layer % 2 + 2)))).2.2 ∧
    ∀ w, w ≠ get_wire size gate_index first_sublayer (layer % 2 + 0) →
      w ≠ get_wire size gate_index first_sublayer (layer % 2 + 1) →
      w ≠ get_wire size gate_index first_sublayer (layer % 2 + 2) →
      get_bit (apply_gate size gate_index gate_name gate_symmetry block first_sublayer
        layer) w = get_bit block w := by
  have hv1 := get_bit_le_one block (get_wire size gate_index first_sublayer (layer % 2 + 0))
  have hv2 := get_bit_le_one block (get_wire size gate_index first_sublayer (layer % 2 + 1))
  have hv3 := get_bit_le_one block (get_wire size gate_index first_sublayer (layer % 2 + 2))
  obtain ⟨ht1, ht2, ht3⟩ := gate_next_le_one gate_name gate_symmetry _ _ _ hv1 hv2 hv3
  have hgets := gate_writeback_gets block
    (get_wire size gate_index first_sublayer (layer % 2 + 0))
    (get_wire size gate_index first_sublayer (layer % 2 + 1))
    (get_wire size gate_index first_sublayer (layer % 2 + 2))
    (gate_next gate_name gate_symmetry
      (get_bit block (get_wire size gate_index first_sublayer (layer % 2 + 0)))
      (get_bit block (get_wire size gate_index first_sublayer (layer % 2 + 1)))
      (get_bit block (get_wire size gate_index first_sublayer (layer % 2 + 2))))
    h12 h13 h23 hb1 hb2 hb3 ht1 ht2 ht3
  rw [gate_next_eq_spec gate_name gate_symmetry _ _ _ hv1 hv2 hv3] at hgets
  refine ⟨?_, ?_, ?_, ?_, ?_⟩
  · intro tapOffset
    unfold get_wire specWire
    congr 1
    omega
  · rw [apply_gate_eq, gate_next_eq_spec gate_name gate_symmetry _ _ _ hv1 hv2 hv3]
    exact hgets.1
  · rw [apply_gate_eq, gate_next_eq_spec gate_name gate_symmetry _ _ _ hv1 hv2 hv3]
    exact hgets.2.1
  · rw [apply_gate_eq, gate_next_eq_spec gate_name gate_symmetry _ _ _ hv1 hv2 hv3]
    exact hgets.2.2.1
  · intro w hw1 hw2 hw3
    rw [apply_gate_eq, gate_next_eq_spec gate_name gate_symmetry _ _ _ hv1 hv2 hv3]
    exact hgets.2.2.2 w hw1 hw2 hw3

/-- Claim C7, witness. -/
theorem claim_C7_witness :
    (get_wire 256 0 true (0 % 2 + 0) ≠ get_wire 256 0 true (0 % 2 + 1) ∧
     get_wire 256 0 true (0 % 2 + 0) ≠ get_wire 256 0 true (0 % 2 + 2) ∧
     get_wire 256 0 true (0 % 2 + 1) ≠ get_wire 256 0 true (0 % 2 + 2) ∧
     get_wire 256 0 true (0 % 2 + 0) / 4 < (List.replicate 64 5).length ∧
     get_wire 256 0 true (0 % 2 + 1) / 4 < (List.replicate 64 5).length ∧
     get_wire 256 0 true (0 % 2 + 2) / 4 < (List.replicate 64 5).length) ∧
    ((∀ tapOffset : Nat,
      get_wire 256 0 true (0 % 2 + tapOffset) =
        specWire 256 0 (0 % 2) tapOffset (if true then 0 else 2)) ∧
    get_bit (apply_gate 256 0 0 0 (List.replicate 64 5) true 0)
        (get_wire 256 0 true (0 % 2 + 0)) =
      (specGateTable 0 0
        (get_bit (List.replicate 64 5) (get_wire 256 0 true (0 % 2 + 0)))
        (get_bit (List.replicate 64 5) (get_wire 256 0 true (0 % 2 + 1)))
        (get_bit (List.replicate 64 5) (get_wire 256 0 true (0 % 2 + 2)))).1 ∧
    get_bit (apply_gate 256 0 0 0 (List.replicate 64 5) true 0)
        (get_wire 256 0 true (0 % 2 + 1)) =
      (specGateTable 0 0
        (get_bit (List.replicate 64 5) (get_wire 256 0 true (0 % 2 + 0)))
        (get_bit (List.replicate 64 5) (get_wire 256 0 true (0 % 2 + 1)))
        (get_bit (List.replicate 64 5) (get_wire 256 0 true (0 % 2 + 2)))).2.1 ∧
    get_bit (apply_gate 256 0 0 0 (List.replicate 64 5) true 0)
        (get_wire 256 0 true (0 % 2 + 2)) =
      (specGateTable 0 0
        (get_bit (List.replicate 64 5) (get_wire 256 0 true (0 % 2 + 0)))
        (get_bit (List.replicate 64 5) (get_wire 256 0 true (0 % 2 + 1)))
        (get_bit (List.replicate 64 5) (get_wire 256 0 true (0 % 2 + 2)))).2.2 ∧
    ∀ w, w ≠ get_wire 256 0 true (0 % 2 + 0) →
      w ≠ get_wire 256 0 true (0 % 2 + 1) →
      w ≠ get_wire 256 0 true (0 % 2 + 2) →
      get_bit (apply_gate 256 0 0 0 (List.replicate 64 5) true 0) w =
        get_bit (List.replicate 64 5) w) :=
  ⟨⟨by decide, by decide, by decide, by decide, by decide, by decide⟩,
   claim_C7 256 0 0 0 (List.replicate 64 5) true 0 (by decide) (by decide) (by decide)
     (by decide) (by decide) (by decide)⟩

/-- Claim C8.  Unpack truncates its byte input to the first 32 bytes,
right-pads with the byte 0x41 to exactly 32 bytes, and emits two nibbles per
byte — high nibble first, low nibble second, in input order — producing
exactly 64 nibbles; for string input the bytes are the UTF-8 encoding. -/
theorem claim_C8 (bs : List Nat) (hbytes : ∀ b ∈ bs, b < 256) :
    (unpack_bytes bs).length = 64 ∧
    unpack_bytes bs = (List.range 32).flatMap
      (fun i => [specPaddedByte bs i / 16, specPaddedByte bs i % 16]) ∧
    (∀ m : List Nat, unpack m = unpack_bytes (utf8Encode m)) :=
  ⟨unpack_bytes_length bs, unpack_bytes_eq_spec bs hbytes, fun _ => rfl⟩

/-- Claim C8, witness. -/
theorem claim_C8_witness :
    (∀ b ∈ [200, 65], b < 256) ∧
    ((unpack_bytes [200, 65]).length = 64 ∧
      unpack_bytes [200, 65] = (List.range 32).flatMap
        (fun i => [specPaddedByte [200, 65] i / 16, specPaddedByte [200, 65] i % 16]) ∧
      (∀ m : List Nat, unpack m = unpack_bytes (utf8Encode m))) :=
  ⟨by decide, claim_C8 [200, 65] (by decide)⟩

/-- Claim C10.  In every reachable state all schedule-key nibbles and all
digest-block nibbles are in the range 0 to 15 (unpack masks to 4 bits, the
layer XOR of two in-range nibbles stays in range, set_bit masks the nibble,
and both initialization modes store reduced values), so every packed digest
byte is below 256 and `pack` is well-defined. -/
theorem claim_C10 (st : Mirror256) (h : Reachable st) :
    (∀ k ∈ st.last_hashes, NibbleList k) ∧
    NibbleList st.hashed ∧
    (∀ m : List Nat, NibbleList (unpack m)) ∧
    (∀ b ∈ digest st, b < 256) := by
  have hinv := reachable_inv st h
  exact ⟨hinv.2.2.2.1, hinv.2.2.2.2, fun m => nibbleList_unpack m,
    pack_lt_256 st.size st.hashed hinv.2.2.2.2⟩

/-- Claim C10, witness. -/
theorem claim_C10_witness :
    Reachable stDefault ∧
    ((∀ k ∈ stDefault.last_hashes, NibbleList k) ∧
      NibbleList stDefault.hashed ∧
      (∀ m : List Nat, NibbleList (unpack m)) ∧
      (∀ b ∈ digest stDefault, b < 256)) :=
  ⟨Reachable.construct none none none true rng0 stDefault rfl,
   claim_C10 stDefault (Reachable.construct none none none true rng0 stDefault rfl)⟩

end MirrorHash
